import Mathlib

/-!
# Verification of the TensorFlow-eager custom-gradient bridge

Shallow embedding of `pennylane/interfaces/tfe.py` (the `TFEQNode`
wrapper): argument marshalling, the forward step, and the backward
closure computing a vector-Jacobian product and restoring the nested
argument structure.  Numeric values are modelled as rationals; NumPy
arrays and nested Python lists as a rose tree of scalars.
-/

set_option maxHeartbeats 1000000

namespace TFE

/-- A nested numeric structure: a scalar leaf (a Python number, or a
zero-dimensional array's payload) or an ordered list of sub-structures
(an array axis / nested list).  Models the numeric payload of NumPy
arrays and nested argument lists. -/
inductive NArg where
  | scalar (c : ℚ)
  | arr (elems : List NArg)

mutual

/-- Number of scalar leaves of a nested structure (NumPy `size`). -/
def sizeN : NArg → ℕ
  | .scalar _ => 1
  | .arr ms => sizeL ms
termination_by a => sizeOf a

/-- Total leaf count of a list of nested structures. -/
def sizeL : List NArg → ℕ
  | [] => 0
  | m :: ms => sizeN m + sizeL ms
termination_by l => sizeOf l

end

mutual

/-- Row-major flattening of a nested structure (NumPy `.flat` order,
natural reading order). -/
def flattenN : NArg → List ℚ
  | .scalar c => [c]
  | .arr ms => flattenL ms
termination_by a => sizeOf a

/-- Flattening of a list of nested structures, in order. -/
def flattenL : List NArg → List ℚ
  | [] => []
  | m :: ms => flattenN m ++ flattenL ms
termination_by l => sizeOf l

end

/-- The pure shape of a nested structure: the tree with the values
erased.  Two structures are "shaped identically" when their shapes are
equal. -/
inductive NShape where
  | scalar
  | arr (elems : List NShape)

mutual

/-- Shape of a nested structure. -/
def shapeN : NArg → NShape
  | .scalar _ => .scalar
  | .arr ms => .arr (shapeLs ms)
termination_by a => sizeOf a

/-- Shapes of a list of nested structures. -/
def shapeLs : List NArg → List NShape
  | [] => []
  | m :: ms => shapeN m :: shapeLs ms
termination_by l => sizeOf l

end

/-- Induction principle for `NArg` that hands the inductive hypothesis
to every member of an `arr` node. -/
theorem NArg.indOn {P : NArg → Prop}
    (hs : ∀ c, P (.scalar c))
    (ha : ∀ l, (∀ x ∈ l, P x) → P (.arr l)) :
    ∀ a, P a
  | .scalar c => hs c
  | .arr l => ha l (fun x hx => NArg.indOn hs ha x)
termination_by a => sizeOf a
decreasing_by
  simp only [NArg.arr.sizeOf_spec]
  exact Nat.lt_add_left 1 (List.sizeOf_lt_of_mem hx)

mutual

/-- Modelled from the spec: the `unflatten` helper imported from
`pennylane.utils`, which is not part of the sources under verification
(only its call site in `tfe.py` is).  Per §4.5 of the spec it rebuilds,
from a flat numeric sequence and a model structure used only for its
shape, a structure shaped exactly like the model, consuming exactly
`sizeN model` leading elements and returning the unconsumed tail;
a too-short flat sequence is an error (never padded). -/
def unflattenN : List ℚ → NArg → Option (NArg × List ℚ)
  | f, .scalar _ =>
    match f with
    | [] => none
    | x :: rest => some (.scalar x, rest)
  | f, .arr ms =>
    match unflattenList f ms with
    | none => none
    | some (rs, rest) => some (.arr rs, rest)
termination_by _ a => sizeOf a

/-- Modelled from the spec: element-by-element unflattening of a list of
model structures (the recursion of `pennylane.utils.unflatten` over an
iterable model), threading the remaining flat elements left to right. -/
def unflattenList : List ℚ → List NArg → Option (List NArg × List ℚ)
  | f, [] => some ([], f)
  | f, m :: ms =>
    match unflattenN f m with
    | none => none
    | some (r, f₁) =>
      match unflattenList f₁ ms with
      | none => none
      | some (rs, f₂) => some (r :: rs, f₂)
termination_by _ l => sizeOf l

end

/-! ## Host values and argument marshalling (`_TFEQNode`, lines 169-171) -/

/-- A positional input as supplied by the host framework: a TensorFlow
tensor or variable (`tf.Variable` / `tf.Tensor`) carrying a numeric
payload, a NumPy array (a zero-dimensional array being one whose payload
is a scalar leaf), a plain Python number, or any other Python object,
left uninterpreted and identified by a tag. -/
inductive HostValue where
  | tensor (payload : NArg)
  | ndarray (payload : NArg)
  | pyscalar (c : ℚ)
  | other (tag : ℕ)

/-- Line 169: `i.numpy() if isinstance(i, (tf.Variable, tf.Tensor)) else i`
— detach a host tensor into a NumPy array of the same payload; leave
everything else unchanged. -/
def detachElem : HostValue → HostValue
  | .tensor p => .ndarray p
  | v => v

/-- Line 171: `i.tolist() if (isinstance(i, np.ndarray) and not i.shape)
else i` — collapse a zero-dimensional NumPy array to a plain Python
scalar; leave everything else unchanged. -/
def collapseElem : HostValue → HostValue
  | .ndarray (.scalar c) => .pyscalar c
  | v => v

/-- The two marshalling list comprehensions of `_TFEQNode` applied in
order: `args` as passed to the QNode and captured by the backward
closure. -/
def marshal (input_ : List HostValue) : List HostValue :=
  (input_.map detachElem).map collapseElem

/-- Marshalling of a single element (the composition of the two
comprehensions pointwise). -/
def marshalElem (v : HostValue) : HostValue :=
  collapseElem (detachElem v)

theorem marshal_eq_map (input_ : List HostValue) :
    marshal input_ = input_.map marshalElem := by
  simp [marshal, marshalElem, List.map_map, Function.comp]

/-! ## The QNode collaborator and the forward step -/

/-- What the wrapped QNode returns from a forward evaluation: a NumPy
array, or a bare scalar (which `_TFEQNode` then wraps via `np.array`). -/
inductive EvalRes where
  | array (a : NArg)
  | scalar (c : ℚ)

/-- The external QNode: a forward evaluator and its Jacobian method,
both black boxes taking the marshalled arguments. -/
structure QNode where
  eval : List HostValue → EvalRes
  jacobian : List HostValue → List (List ℚ)

/-- Lines 176-178: `if not isinstance(res, np.ndarray): res = np.array(res)`
— normalize the QNode result to an array (a scalar becomes a
zero-dimensional array). -/
def normalizeRes : EvalRes → NArg
  | .array a => a
  | .scalar c => .scalar c

/-- Observable calls the bridge makes to the QNode collaborator. -/
inductive Ev where
  | evalCall
  | jacCall

theorem Ev.evalCall_ne_jacCall : Ev.evalCall ≠ Ev.jacCall := by
  intro h
  cases h

/-- The forward step of `_TFEQNode`: marshal the inputs, evaluate the
QNode, normalize the result; the marshalled `args` are the state
captured by the backward closure.  The third component is the trace of
collaborator calls the forward step performs. -/
def forwardE (q : QNode) (input_ : List HostValue) :
    (NArg × List HostValue) × List Ev :=
  let args := marshal input_
  let res := q.eval args
  ((normalizeRes res, args), [Ev.evalCall])

/-! ## The backward closure: vector-Jacobian product (lines 185-195) -/

/-- The upstream gradient `grad_output.numpy()`: either a
zero-dimensional array (`not grad_output_np.shape`) or a vector. -/
inductive GradOut where
  | scalar (c : ℚ)
  | vec (g : List ℚ)

/-- Elementwise sum of two vectors of equal length (NumPy `+` on
equal-shaped arrays). -/
def vadd (a b : List ℚ) : List ℚ :=
  List.zipWith (fun x y => x + y) a b

/-- NumPy `g.T @ J` for a one-dimensional `g` and matrix `J` with
matching row count: the sum of the rows of `J`, each scaled by the
corresponding entry of `g`. -/
def matvecT : List ℚ → List (List ℚ) → List ℚ
  | [g], [row] => row.map (fun x => g * x)
  | g :: gs, row :: rows => vadd (row.map (fun x => g * x)) (matvecT gs rows)
  | _, _ => []

/-- Scalar broadcast `c * J` followed by `.flat`: every entry of the
matrix scaled, read off in row-major order. -/
def scaleFlat (c : ℚ) (J : List (List ℚ)) : List ℚ :=
  (J.map (fun row => row.map (fun x => c * x))).flatten

/-- Errors the backward closure can surface. -/
inductive BackError where
  | shapeMismatch
  | reconstruction

/-- Lines 188-191 of the backward closure: the vector-Jacobian product
producing `temp.flat`.  A scalar `grad_output` broadcasts over the whole
Jacobian; a vector `grad_output` is matrix-multiplied, which NumPy
rejects when its length differs from the Jacobian's row count. -/
def vjp (g : GradOut) (J : List (List ℚ)) : Except BackError (List ℚ) :=
  match g with
  | .scalar c => .ok (scaleFlat c J)
  | .vec gv =>
    if gv.length = J.length then .ok (matvecT gv J) else .error .shapeMismatch

/-- The flat vector `temp.flat` computed inside the backward closure for
a given QNode, captured arguments and upstream gradient. -/
def backwardFlat (q : QNode) (args : List HostValue) (g : GradOut) :
    Except BackError (List ℚ) :=
  vjp g (q.jacobian args)

/-! ## Unflattening against the marshalled arguments (line 194) -/

/-- Modelled from the spec (§4.5): unflattening one gradient entry
against one marshalled argument used as shape model.  A plain scalar
model consumes one element and yields a plain scalar; an array model
consumes its size and yields an equally shaped array; any other model
kind (a host tensor or an uninterpreted object, which marshalled
arguments are not supposed to contain) is a reconstruction failure. -/
def unflattenHV : List ℚ → HostValue → Option (HostValue × List ℚ)
  | f, .pyscalar _ =>
    match f with
    | [] => none
    | x :: rest => some (.pyscalar x, rest)
  | f, .ndarray p =>
    match unflattenN f p with
    | none => none
    | some (r, rest) => some (.ndarray r, rest)
  | _, .tensor _ => none
  | _, .other _ => none

/-- Modelled from the spec (§4.5): unflattening against each marshalled
argument in order, threading the remaining flat elements. -/
def unflattenHVList : List ℚ → List HostValue → Option (List HostValue × List ℚ)
  | f, [] => some ([], f)
  | f, m :: ms =>
    match unflattenHV f m with
    | none => none
    | some (r, f₁) =>
      match unflattenHVList f₁ ms with
      | none => none
      | some (rs, f₂) => some (r :: rs, f₂)

/-- Modelled from the spec (§4.5): `unflatten(temp.flat, args)` over the
whole argument list, failing (never silently truncating) when flat
elements remain after the model is exhausted. -/
def unflattenArgs (f : List ℚ) (model : List HostValue) :
    Option (List HostValue) :=
  match unflattenHVList f model with
  | none => none
  | some (rs, rest) => if rest = [] then some rs else none

/-- Lines 185-195 in full: the backward closure.  Computes the Jacobian,
contracts it with the upstream gradient, and restores the nested
structure of the captured marshalled arguments.  Returns the per-argument
gradient tuple, the captured arguments as they stand after the call, and
the trace of collaborator calls. -/
def backwardE (q : QNode) (args : List HostValue) (g : GradOut) :
    (Except BackError (List HostValue) × List HostValue) × List Ev :=
  let res :=
    match vjp g (q.jacobian args) with
    | .error e => .error e
    | .ok flat =>
      match unflattenArgs flat args with
      | none => .error BackError.reconstruction
      | some grads => .ok grads
  ((res, args), [Ev.jacCall])

/-- The gradient tuple returned by the backward closure. -/
def backward (q : QNode) (args : List HostValue) (g : GradOut) :
    Except BackError (List HostValue) :=
  ((backwardE q args g).1).1

/-! ## Sizes and shapes of host values -/

/-- Flat numeric size of a marshalled argument (NumPy `size`; an
uninterpreted object contributes nothing). -/
def sizeHV : HostValue → ℕ
  | .pyscalar _ => 1
  | .ndarray p => sizeN p
  | .tensor p => sizeN p
  | .other _ => 0

/-- Total flat numeric size of an argument list. -/
def sizeHVL (l : List HostValue) : ℕ :=
  (l.map sizeHV).sum

/-- Numeric shape of a host value, when it has one: tensors and arrays
have the shape of their payload, a plain number is scalar-shaped, an
uninterpreted object has no numeric shape. -/
def shapeHV : HostValue → Option NShape
  | .tensor p => some (shapeN p)
  | .ndarray p => some (shapeN p)
  | .pyscalar _ => some .scalar
  | .other _ => none

/-- How a reconstructed gradient entry relates to the marshalled
argument it was modelled on: a plain-scalar model yields a plain scalar,
an array model yields an equally shaped array, and no other model kind
can yield an entry. -/
def gradEntryMatches (model r : HostValue) : Prop :=
  match model with
  | .pyscalar _ => ∃ c, r = .pyscalar c
  | .ndarray p => ∃ q, r = .ndarray q ∧ shapeN q = shapeN p
  | .tensor _ => False
  | .other _ => False

/-! ## Flatten/unflatten lemmas -/

theorem unflattenList_flattenL (l : List NArg)
    (ih : ∀ x ∈ l, ∀ rest, unflattenN (flattenN x ++ rest) x = some (x, rest)) :
    ∀ rest : List ℚ, unflattenList (flattenL l ++ rest) l = some (l, rest) := by
  induction l with
  | nil => intro rest; simp [flattenL, unflattenList]
  | cons m ms ihl =>
    intro rest
    have h1 := ih m (by simp) (flattenL ms ++ rest)
    have h2 := ihl (fun x hx r => ih x (by simp [hx]) r) rest
    simp [flattenL, unflattenList, List.append_assoc, h1, h2]

theorem unflattenN_flattenN (a : NArg) :
    ∀ rest : List ℚ, unflattenN (flattenN a ++ rest) a = some (a, rest) := by
  induction a using NArg.indOn with
  | hs c => intro rest; simp [flattenN, unflattenN]
  | ha l ih =>
    intro rest
    simp [flattenN, unflattenN, unflattenList_flattenL l ih rest]

theorem unflattenList_shape_len (l : List NArg)
    (ih : ∀ x ∈ l, ∀ (f : List ℚ) (r : NArg) (rest : List ℚ),
      unflattenN f x = some (r, rest) →
      shapeN r = shapeN x ∧ f.length = sizeN x + rest.length) :
    ∀ (f : List ℚ) (rs : List NArg) (rest : List ℚ),
      unflattenList f l = some (rs, rest) →
      shapeLs rs = shapeLs l ∧ f.length = sizeL l + rest.length := by
  induction l with
  | nil =>
    intro f rs rest h
    simp [unflattenList] at h
    obtain ⟨h1, h2⟩ := h
    subst h1; subst h2
    simp [sizeL]
  | cons m ms ihl =>
    intro f rs rest h
    rw [unflattenList] at h
    split at h
    · exact absurd h (by simp)
    next r f₁ hm =>
      split at h
      · exact absurd h (by simp)
      next rs' f₂ hms =>
        simp only [Option.some.injEq, Prod.mk.injEq] at h
        obtain ⟨h1, h2⟩ := h
        subst h1; subst h2
        obtain ⟨hsh, hlen⟩ := ih m (by simp) f r f₁ hm
        obtain ⟨hsh', hlen'⟩ :=
          ihl (fun x hx => ih x (by simp [hx])) f₁ rs' f₂ hms
        refine ⟨by simp [shapeLs, hsh, hsh'], ?_⟩
        rw [hlen, hlen', sizeL]
        omega

theorem unflattenN_shape_len (m : NArg) :
    ∀ (f : List ℚ) (r : NArg) (rest : List ℚ),
      unflattenN f m = some (r, rest) →
      shapeN r = shapeN m ∧ f.length = sizeN m + rest.length := by
  induction m using NArg.indOn with
  | hs c =>
    intro f r rest h
    cases f with
    | nil => rw [unflattenN] at h; exact absurd h (by simp)
    | cons x t =>
      rw [unflattenN] at h
      simp at h
      obtain ⟨h1, h2⟩ := h
      subst h1; subst h2
      refine ⟨by simp [shapeN], ?_⟩
      simp [sizeN]
      omega
  | ha l ih =>
    intro f r rest h
    rw [unflattenN] at h
    split at h
    · exact absurd h (by simp)
    next rs f₂ hl =>
      simp only [Option.some.injEq, Prod.mk.injEq] at h
      obtain ⟨h1, h2⟩ := h
      subst h1; subst h2
      obtain ⟨hsh, hlen⟩ := unflattenList_shape_len l ih f rs f₂ hl
      exact ⟨by simp [shapeN, hsh], by simpa [sizeN] using hlen⟩

theorem unflattenHV_ok {f : List ℚ} {v r : HostValue} {rest : List ℚ}
    (h : unflattenHV f v = some (r, rest)) :
    gradEntryMatches v r ∧ f.length = sizeHV v + rest.length := by
  cases v with
  | pyscalar c =>
    cases f with
    | nil => rw [unflattenHV] at h; exact absurd h (by simp)
    | cons x t =>
      rw [unflattenHV] at h
      simp at h
      obtain ⟨h1, h2⟩ := h
      subst h1; subst h2
      exact ⟨⟨x, rfl⟩, by simp [sizeHV]; omega⟩
  | ndarray p =>
    rw [unflattenHV] at h
    split at h
    · exact absurd h (by simp)
    next q f₂ hq =>
      simp only [Option.some.injEq, Prod.mk.injEq] at h
      obtain ⟨h1, h2⟩ := h
      subst h1; subst h2
      obtain ⟨hsh, hlen⟩ := unflattenN_shape_len p f q f₂ hq
      exact ⟨⟨q, rfl, hsh⟩, by simpa [sizeHV] using hlen⟩
  | tensor p => rw [unflattenHV] at h; exact absurd h (by simp)
  | other n => rw [unflattenHV] at h; exact absurd h (by simp)

theorem unflattenHVList_ok :
    ∀ (model : List HostValue) (f : List ℚ) (rs : List HostValue)
      (rest : List ℚ),
      unflattenHVList f model = some (rs, rest) →
      List.Forall₂ gradEntryMatches model rs ∧
        f.length = sizeHVL model + rest.length := by
  intro model
  induction model with
  | nil =>
    intro f rs rest h
    simp [unflattenHVList] at h
    obtain ⟨h1, h2⟩ := h
    subst h1; subst h2
    simp [sizeHVL]
  | cons m ms ihl =>
    intro f rs rest h
    rw [unflattenHVList] at h
    split at h
    · exact absurd h (by simp)
    next r f₁ hm =>
      split at h
      · exact absurd h (by simp)
      next rs' f₂ hms =>
        simp only [Option.some.injEq, Prod.mk.injEq] at h
        obtain ⟨h1, h2⟩ := h
        subst h1; subst h2
        obtain ⟨hmt, hlen⟩ := unflattenHV_ok hm
        obtain ⟨hmt', hlen'⟩ := ihl f₁ rs' f₂ hms
        refine ⟨List.Forall₂.cons hmt hmt', ?_⟩
        rw [hlen, hlen']
        simp [sizeHVL]
        omega

theorem unflattenArgs_ok {f : List ℚ} {model rs : List HostValue}
    (h : unflattenArgs f model = some rs) :
    List.Forall₂ gradEntryMatches model rs ∧ f.length = sizeHVL model := by
  rw [unflattenArgs] at h
  split at h
  · exact absurd h (by simp)
  next rs' rest hg =>
    split at h
    next hrest =>
      simp only [Option.some.injEq] at h
      subst h
      subst hrest
      obtain ⟨hmt, hlen⟩ := unflattenHVList_ok model f rs' [] hg
      exact ⟨hmt, by simpa using hlen⟩
    · exact absurd h (by simp)

/-! ## Marshalling lemmas -/

theorem shapeHV_marshalElem (v : HostValue) :
    shapeHV (marshalElem v) = shapeHV v := by
  cases v with
  | tensor p =>
    cases p <;> simp [marshalElem, detachElem, collapseElem, shapeHV, shapeN]
  | ndarray p =>
    cases p <;> simp [marshalElem, detachElem, collapseElem, shapeHV, shapeN]
  | pyscalar c => rfl
  | other n => rfl

theorem gradEntryMatches_shapeHV {m r : HostValue}
    (h : gradEntryMatches m r) : shapeHV r = shapeHV m := by
  cases m with
  | pyscalar c =>
    obtain ⟨c', hc⟩ := h
    subst hc
    rfl
  | ndarray p =>
    obtain ⟨q, hq, hsh⟩ := h
    subst hq
    simp [shapeHV, hsh]
  | tensor p => exact absurd h (by simp [gradEntryMatches])
  | other n => exact absurd h (by simp [gradEntryMatches])

/-! ## Vector-Jacobian product lemmas -/

/-- The spec's own description of the vector-output VJP (§4.4 and §8):
`g^T @ J` written as explicit contractions — a vector of length `n`
whose `j`-th entry is the sum over rows `i` of `g_i * J_{i,j}`.  Stated
from the spec's words, to be compared with `matvecT`, the embedding of
the NumPy expression the code uses. -/
def specVJP (g : List ℚ) (J : List (List ℚ)) (n : ℕ) : List ℚ :=
  (List.range n).map
    (fun j => ((g.zip J).map (fun p => p.1 * p.2.getD j 0)).sum)

theorem specVJP_length (g : List ℚ) (J : List (List ℚ)) (n : ℕ) :
    (specVJP g J n).length = n := by
  simp [specVJP]

theorem matvecT_eq_specVJP :
    ∀ (g : List ℚ) (J : List (List ℚ)) (n : ℕ), g ≠ [] →
      g.length = J.length → (∀ r ∈ J, r.length = n) →
      matvecT g J = specVJP g J n := by
  intro g
  induction g with
  | nil => intro J n hne; exact absurd rfl hne
  | cons x xs ih =>
    intro J n hne hlen hrect
    cases J with
    | nil => simp at hlen
    | cons row rows =>
      have hrow : row.length = n := hrect row (by simp)
      cases xs with
      | nil =>
        have hrows : rows = [] := by
          cases rows with
          | nil => rfl
          | cons r rs => simp at hlen
        subst hrows
        show matvecT [x] [row] = specVJP [x] [row] n
        rw [show matvecT [x] [row] = row.map (fun v => x * v) from rfl]
        apply List.ext_getElem
        · simp [specVJP, hrow]
        · intro i h1 h2
          have hi : i < row.length := by simpa using h1
          simp only [List.getElem_map, List.getElem_range, specVJP,
            List.zip_cons_cons, List.zip_nil_left, List.map_cons,
            List.map_nil, List.sum_cons, List.sum_nil, add_zero]
          rw [List.getD_eq_getElem row 0 hi]
      | cons y ys =>
        cases rows with
        | nil => simp at hlen
        | cons r rs =>
          have hih := ih (r :: rs) n (by simp) (by simpa using hlen)
            (fun rr hrr => hrect rr (by simp [hrr]))
          rw [show matvecT (x :: y :: ys) (row :: r :: rs) =
            vadd (row.map (fun v => x * v)) (matvecT (y :: ys) (r :: rs))
            from rfl]
          rw [hih]
          apply List.ext_getElem
          · simp [vadd, specVJP, hrow]
          · intro i h1 h2
            have hi : i < row.length := by
              simp [vadd, specVJP, hrow] at h1
              omega
            simp only [vadd, List.getElem_zipWith, List.getElem_map,
              List.getElem_range, specVJP, List.zip_cons_cons,
              List.map_cons, List.sum_cons]
            rw [List.getD_eq_getElem row 0 hi]

theorem scaleFlat_length (c : ℚ) (J : List (List ℚ)) :
    (scaleFlat c J).length = J.flatten.length := by
  induction J with
  | nil => rfl
  | cons r rs ih =>
    simp only [scaleFlat, List.map_cons, List.flatten_cons,
      List.length_append, List.length_map] at ih ⊢
    rw [ih]

/-- A successful backward invocation relates each gradient entry to the
captured marshalled argument it was reconstructed against. -/
theorem backward_ok_matches {q : QNode} {args : List HostValue}
    {g : GradOut} {grads : List HostValue}
    (h : backward q args g = .ok grads) :
    List.Forall₂ gradEntryMatches args grads := by
  rw [backward, backwardE] at h
  simp only at h
  split at h
  · exact absurd h (by simp)
  next flat hv =>
    split at h
    · exact absurd h (by simp)
    next grads' hu =>
      simp only [Except.ok.injEq] at h
      subst h
      exact (unflattenArgs_ok hu).1

/-! ## Claims -/

/-- C1: for every backward invocation in which GradOutput is a
zero-dimensional (scalar) value and the Jacobian returned by
`qnode.jacobian` has exactly one row, the flat gradient vector computed
by the backward closure (`temp.flat` of lines 188-189) equals GradOutput
multiplied elementwise by that single Jacobian row. -/
theorem C1_scalar_vjp_row (q : QNode) (args : List HostValue) (c : ℚ)
    (row : List ℚ) (hJ : q.jacobian args = [row]) :
    backwardFlat q args (.scalar c) = .ok (row.map (fun x => c * x)) := by
  simp [backwardFlat, vjp, hJ, scaleFlat]

/-- Witness for C1 at a concrete Jacobian row and upstream gradient. -/
theorem C1_scalar_vjp_row_witness :
    backwardFlat ⟨fun _ => EvalRes.scalar 0, fun _ => [[1, 2, 3]]⟩ []
      (.scalar 2) = .ok [2, 4, 6] := by
  have h := C1_scalar_vjp_row ⟨fun _ => EvalRes.scalar 0, fun _ => [[1, 2, 3]]⟩
    [] 2 [1, 2, 3] rfl
  norm_num at h
  exact h

/-- C2: for every backward invocation in which GradOutput is a vector of
size `m` and the Jacobian has shape `[m, n]`, the flat gradient vector
computed by the backward closure (line 191) equals the matrix product
`GradOutput^T @ Jacobian` — stated via `specVJP`, the spec's explicit
sum-of-products formulation — a vector of length `n` equal to the total
flattened input size. -/
theorem C2_vector_vjp (q : QNode) (args : List HostValue) (gv : List ℚ)
    (m n : ℕ) (hne : gv ≠ []) (hm : gv.length = m)
    (hJr : (q.jacobian args).length = m)
    (hrect : ∀ r ∈ q.jacobian args, r.length = n)
    (hn : n = sizeHVL args) :
    backwardFlat q args (.vec gv) =
      .ok (specVJP gv (q.jacobian args) n) ∧
      (specVJP gv (q.jacobian args) n).length = sizeHVL args := by
  have hlen : gv.length = (q.jacobian args).length := by rw [hm, hJr]
  refine ⟨?_, by rw [specVJP_length, hn]⟩
  rw [backwardFlat, vjp, if_pos hlen,
    matvecT_eq_specVJP gv (q.jacobian args) n hne hlen hrect]

/-- Witness for C2: `g = [1, 1, 2]` against a concrete `3 × 2` Jacobian
and a flattened input of size 2. -/
theorem C2_vector_vjp_witness :
    backwardFlat ⟨fun _ => EvalRes.scalar 0, fun _ => [[1, 2], [3, 4], [5, 6]]⟩
        [HostValue.ndarray (.arr [.scalar 0, .scalar 0])] (.vec [1, 1, 2]) =
      .ok [14, 18] ∧
    ([14, 18] : List ℚ).length =
      sizeHVL [HostValue.ndarray (.arr [.scalar 0, .scalar 0])] := by
  have h := C2_vector_vjp
    ⟨fun _ => EvalRes.scalar 0, fun _ => [[1, 2], [3, 4], [5, 6]]⟩
    [HostValue.ndarray (.arr [.scalar 0, .scalar 0])] [1, 1, 2] 3 2
    (by simp) rfl rfl
    (by intro r hr; simp at hr; rcases hr with rfl | rfl | rfl <;> rfl)
    (by simp [sizeHVL, sizeHV, sizeN, sizeL])
  have hs : specVJP [1, 1, 2] [[1, 2], [3, 4], [5, 6]] 2 = [14, 18] := by
    norm_num [specVJP, List.range_succ]
  rw [hs] at h
  exact h

/-- C3: flattening followed by unflattening (against the structure's own
shapes) is the identity on every legal nested numeric argument
structure, and likewise on every list of such structures.  The
unflattener is modelled from the spec, `pennylane.utils` not being among
the sources. -/
theorem C3_flatten_unflatten_id :
    (∀ a : NArg, unflattenN (flattenN a) a = some (a, [])) ∧
    (∀ l : List NArg, unflattenList (flattenL l) l = some (l, [])) := by
  constructor
  · intro a
    simpa using unflattenN_flattenN a []
  · intro l
    have hx : ∀ x ∈ l, ∀ rest : List ℚ,
        unflattenN (flattenN x ++ rest) x = some (x, rest) :=
      fun x _ => unflattenN_flattenN x
    simpa using unflattenList_flattenL l hx []

/-- C4: the forward step never invokes `qnode.jacobian` (its call trace
holds no Jacobian call, and its outcome is unchanged if the wrapped
QNode's Jacobian method is replaced by any other); the Jacobian call
happens only inside the backward closure; and two forward invocations
with identical inputs yield identical results, the evaluator being a
function. -/
theorem C4_forward_lazy (q q' : QNode) (i j : List HostValue)
    (heval : q.eval = q'.eval) (hij : i = j) :
    Ev.jacCall ∉ (forwardE q i).2 ∧
    (∀ (args : List HostValue) (g : GradOut),
      Ev.jacCall ∈ (backwardE q args g).2) ∧
    forwardE q i = forwardE q' j := by
  subst hij
  refine ⟨?_, ?_, ?_⟩
  · simp [forwardE]
  · intro args g
    simp [backwardE]
  · simp [forwardE, heval]

/-- Witness for C4: two QNodes with the same evaluator and different
Jacobian methods produce identical forward outcomes, with no Jacobian
call in the forward trace. -/
theorem C4_forward_lazy_witness :
    Ev.jacCall ∉
      (forwardE ⟨fun _ => EvalRes.scalar 1, fun _ => [[5]]⟩
        [HostValue.pyscalar 3]).2 ∧
    (∀ (args : List HostValue) (g : GradOut),
      Ev.jacCall ∈
        (backwardE ⟨fun _ => EvalRes.scalar 1, fun _ => [[5]]⟩ args g).2) ∧
    forwardE ⟨fun _ => EvalRes.scalar 1, fun _ => [[5]]⟩
        [HostValue.pyscalar 3] =
      forwardE ⟨fun _ => EvalRes.scalar 1, fun _ => [[7]]⟩
        [HostValue.pyscalar 3] :=
  C4_forward_lazy ⟨fun _ => EvalRes.scalar 1, fun _ => [[5]]⟩
    ⟨fun _ => EvalRes.scalar 1, fun _ => [[7]]⟩
    [HostValue.pyscalar 3] [HostValue.pyscalar 3] rfl rfl

/-- C5 counterexample: a zero-dimensional NumPy array supplied directly
by the host — a non-tensor element — is not passed through unchanged:
line 171 collapses it to a plain scalar, because the collapse runs over
all arguments, not only over detached tensors. -/
theorem C5_counterexample :
    marshal [HostValue.ndarray (.scalar 3)] = [HostValue.pyscalar 3] ∧
    marshal [HostValue.ndarray (.scalar 3)] ≠ [HostValue.ndarray (.scalar 3)] := by
  constructor
  · rfl
  · intro h
    simp [marshal, detachElem, collapseElem] at h

/-- C5 amended: marshalling maps each host tensor to its detached
numeric value, collapses every zero-dimensional array — whether it
resulted from detaching a tensor or was supplied directly — to a plain
numeric scalar, and passes every other non-tensor element through
unchanged. -/
theorem C5_marshal_cases :
    (∀ c, marshalElem (.tensor (.scalar c)) = .pyscalar c) ∧
    (∀ l, marshalElem (.tensor (.arr l)) = .ndarray (.arr l)) ∧
    (∀ c, marshalElem (.ndarray (.scalar c)) = .pyscalar c) ∧
    (∀ l, marshalElem (.ndarray (.arr l)) = .ndarray (.arr l)) ∧
    (∀ c, marshalElem (.pyscalar c) = .pyscalar c) ∧
    (∀ n, marshalElem (.other n) = .other n) ∧
    (∀ input_ : List HostValue, marshal input_ = input_.map marshalElem) :=
  ⟨fun _ => rfl, fun _ => rfl, fun _ => rfl, fun _ => rfl, fun _ => rfl,
    fun _ => rfl, marshal_eq_map⟩

theorem marshal_get (input_ : List HostValue) (i : ℕ)
    (hmi : i < (marshal input_).length) (hi : i < input_.length) :
    (marshal input_).get ⟨i, hmi⟩ = marshalElem (input_.get ⟨i, hi⟩) := by
  simp [marshal_eq_map]

/-- C6: every successful backward invocation returns one gradient entry
per original host argument, each shaped identically (as a numeric shape)
to that argument; reconstruction is modelled from the spec, the
unflattener's source not being under verification. -/
theorem C6_grad_structure (q : QNode) (input_ : List HostValue)
    (g : GradOut) (grads : List HostValue)
    (h : backward q (marshal input_) g = .ok grads) :
    grads.length = input_.length ∧
    ∀ (i : ℕ) (hg : i < grads.length) (hi : i < input_.length),
      shapeHV (grads.get ⟨i, hg⟩) = shapeHV (input_.get ⟨i, hi⟩) := by
  have hm := backward_ok_matches h
  obtain ⟨hlen, hget⟩ := List.forall₂_iff_get.mp hm
  have hml : (marshal input_).length = input_.length := by simp [marshal]
  refine ⟨by omega, ?_⟩
  intro i hg hi
  have hmi : i < (marshal input_).length := by omega
  have h1 := gradEntryMatches_shapeHV (hget i hmi hg)
  rw [h1, marshal_get input_ i hmi hi, shapeHV_marshalElem]

/-- Witness for C6: a concrete successful backward pass over a scalar
tensor argument and a one-dimensional array argument. -/
theorem C6_grad_structure_witness :
    ([HostValue.pyscalar 10,
        HostValue.ndarray (.arr [.scalar 20])] : List HostValue).length =
      ([HostValue.tensor (.scalar 5),
        HostValue.ndarray (.arr [.scalar 1])] : List HostValue).length ∧
    ∀ (i : ℕ)
      (hg : i < ([HostValue.pyscalar 10,
        HostValue.ndarray (.arr [.scalar 20])] : List HostValue).length)
      (hi : i < ([HostValue.tensor (.scalar 5),
        HostValue.ndarray (.arr [.scalar 1])] : List HostValue).length),
      shapeHV (([HostValue.pyscalar 10,
        HostValue.ndarray (.arr [.scalar 20])] : List HostValue).get ⟨i, hg⟩) =
      shapeHV (([HostValue.tensor (.scalar 5),
        HostValue.ndarray (.arr [.scalar 1])] : List HostValue).get ⟨i, hi⟩) := by
  apply C6_grad_structure ⟨fun _ => EvalRes.scalar 0, fun _ => [[10, 20]]⟩
    [HostValue.tensor (.scalar 5), HostValue.ndarray (.arr [.scalar 1])]
    (.scalar 1)
  norm_num [backward, backwardE, vjp, scaleFlat, marshal, detachElem,
    collapseElem, unflattenArgs, unflattenHVList, unflattenHV, unflattenN,
    unflattenList]

/-- C7 counterexample: a scalar GradOutput (flat size 1) against a
Jacobian with two rows — sizes in disagreement — does not make the VJP
step signal a shape mismatch: NumPy broadcasting lets the product
succeed. -/
theorem C7_counterexample :
    backwardFlat ⟨fun _ => EvalRes.scalar 0, fun _ => [[1, 2], [3, 4]]⟩ []
        (.scalar 2) = .ok [2, 4, 6, 8] ∧
    backwardFlat ⟨fun _ => EvalRes.scalar 0, fun _ => [[1, 2], [3, 4]]⟩ []
        (.scalar 2) ≠ .error BackError.shapeMismatch := by
  have h1 : backwardFlat ⟨fun _ => EvalRes.scalar 0, fun _ => [[1, 2], [3, 4]]⟩
      [] (.scalar 2) = .ok [2, 4, 6, 8] := by
    norm_num [backwardFlat, vjp, scaleFlat]
  refine ⟨h1, ?_⟩
  rw [h1]
  simp

/-- C7 amended: a vector GradOutput whose size disagrees with the
Jacobian's row count makes the VJP step signal a shape mismatch; a
scalar GradOutput broadcasts over any row count without error at the
VJP step, the disagreement surfacing instead as a reconstruction error
whenever the flattened product's length differs from the total input
size.  In neither case is the gradient silently truncated or padded. -/
theorem C7_shape_errors :
    (∀ (q : QNode) (args : List HostValue) (gv : List ℚ),
        gv.length ≠ (q.jacobian args).length →
        backwardFlat q args (.vec gv) = .error .shapeMismatch) ∧
    (∀ (q : QNode) (args : List HostValue) (c : ℚ),
        ((q.jacobian args).flatten).length ≠ sizeHVL args →
        backward q args (.scalar c) = .error .reconstruction) := by
  constructor
  · intro q args gv h
    rw [backwardFlat, vjp, if_neg h]
  · intro q args c h
    cases hu : unflattenArgs (scaleFlat c (q.jacobian args)) args with
    | none => simp [backward, backwardE, vjp, hu]
    | some rs =>
      exfalso
      have hl := (unflattenArgs_ok hu).2
      rw [scaleFlat_length] at hl
      exact h hl

/-- Witness for C7's amended statement at concrete shapes. -/
theorem C7_shape_errors_witness :
    backwardFlat ⟨fun _ => EvalRes.scalar 0, fun _ => [[1], [2]]⟩ []
      (.vec [1, 2, 3]) = .error .shapeMismatch ∧
    backward ⟨fun _ => EvalRes.scalar 0, fun _ => [[1, 2], [3, 4]]⟩
      [HostValue.pyscalar 0] (.scalar 1) = .error .reconstruction :=
  ⟨C7_shape_errors.1 ⟨fun _ => EvalRes.scalar 0, fun _ => [[1], [2]]⟩ []
      [1, 2, 3] (by simp),
    C7_shape_errors.2 ⟨fun _ => EvalRes.scalar 0, fun _ => [[1, 2], [3, 4]]⟩
      [HostValue.pyscalar 0] 1 (by simp [sizeHVL, sizeHV])⟩

/-- C8 counterexample: an input tuple holding an element of a kind the
evaluator cannot accept (an uninterpreted host object) makes marshalling
signal nothing: lines 169-171 contain no validation, and the element
passes through unchanged, so marshalling returns normally. -/
theorem C8_counterexample :
    marshal [HostValue.other 7, HostValue.pyscalar 1] =
      [HostValue.other 7, HostValue.pyscalar 1] := rfl

/-- C8 amended: argument marshalling performs no type validation and
signals no error: it is a total per-element mapping, and an element of
a kind the evaluator cannot accept passes through unchanged, any failure
surfacing only later from the evaluator itself. -/
theorem C8_no_validation :
    (∀ n, marshalElem (HostValue.other n) = HostValue.other n) ∧
    (∀ input_ : List HostValue, marshal input_ = input_.map marshalElem) :=
  ⟨fun _ => rfl, marshal_eq_map⟩

/-- C9: an argument supplied as a zero-dimensional host tensor gets back
a gradient entry that is a plain numeric scalar, not a zero-dimensional
array: the unflattener (modelled from the spec) reconstructs against the
marshalled, scalar-collapsed arguments rather than the original host
arguments. -/
theorem C9_scalar_tensor_grad (q : QNode) (input_ : List HostValue)
    (g : GradOut) (grads : List HostValue) (c : ℚ) (i : ℕ)
    (hi : i < input_.length)
    (hin : input_.get ⟨i, hi⟩ = .tensor (.scalar c))
    (h : backward q (marshal input_) g = .ok grads) :
    ∃ (hg : i < grads.length) (x : ℚ), grads.get ⟨i, hg⟩ = .pyscalar x := by
  have hm := backward_ok_matches h
  obtain ⟨hlen, hget⟩ := List.forall₂_iff_get.mp hm
  have hml : (marshal input_).length = input_.length := by simp [marshal]
  have hg : i < grads.length := by omega
  refine ⟨hg, ?_⟩
  have hmi : i < (marshal input_).length := by omega
  have hmatch := hget i hmi hg
  rw [marshal_get input_ i hmi hi, hin] at hmatch
  exact hmatch

/-- Witness for C9: a zero-dimensional tensor argument whose gradient
entry comes back as the plain scalar 20. -/
theorem C9_scalar_tensor_grad_witness :
    ∃ (hg : 0 < ([HostValue.pyscalar 20] : List HostValue).length)
      (x : ℚ),
      ([HostValue.pyscalar 20] : List HostValue).get ⟨0, hg⟩ = .pyscalar x := by
  apply C9_scalar_tensor_grad ⟨fun _ => EvalRes.scalar 0, fun _ => [[10]]⟩
    [HostValue.tensor (.scalar 5)] (.scalar 2) [HostValue.pyscalar 20] 5 0
    (by simp) rfl
  norm_num [backward, backwardE, vjp, scaleFlat, marshal, detachElem,
    collapseElem, unflattenArgs, unflattenHVList, unflattenHV]

/-- C10: the backward closure is pure and deterministic — for one
forward call's captured arguments, invocations with numerically equal
upstream gradients return equal gradient tuples (depending only on the
Jacobian method and the captured arguments), the captured arguments are
left unchanged, and every invocation performs its own Jacobian call
(the Jacobian is recomputed, never cached). -/
theorem C10_backward_pure (q q' : QNode) (args : List HostValue)
    (g₁ g₂ : GradOut) (hj : q.jacobian = q'.jacobian) (hg : g₁ = g₂) :
    ((backwardE q args g₁).1).1 = ((backwardE q' args g₂).1).1 ∧
    ((backwardE q args g₁).1).2 = args ∧
    (backwardE q args g₁).2 = [Ev.jacCall] ∧
    (backwardE q' args g₂).2 = [Ev.jacCall] := by
  subst hg
  exact ⟨by simp [backwardE, hj], rfl, rfl, rfl⟩

/-- Witness for C10: two wrapped QNodes sharing a Jacobian method but
differing in evaluator agree on a concrete backward invocation. -/
theorem C10_backward_pure_witness :
    ((backwardE ⟨fun _ => EvalRes.scalar 0, fun _ => [[1]]⟩
        [HostValue.pyscalar 2] (.scalar 1)).1).1 =
      ((backwardE ⟨fun _ => EvalRes.scalar 9, fun _ => [[1]]⟩
        [HostValue.pyscalar 2] (.scalar 1)).1).1 ∧
    ((backwardE ⟨fun _ => EvalRes.scalar 0, fun _ => [[1]]⟩
        [HostValue.pyscalar 2] (.scalar 1)).1).2 = [HostValue.pyscalar 2] ∧
    (backwardE ⟨fun _ => EvalRes.scalar 0, fun _ => [[1]]⟩
        [HostValue.pyscalar 2] (.scalar 1)).2 = [Ev.jacCall] ∧
    (backwardE ⟨fun _ => EvalRes.scalar 9, fun _ => [[1]]⟩
        [HostValue.pyscalar 2] (.scalar 1)).2 = [Ev.jacCall] :=
  C10_backward_pure ⟨fun _ => EvalRes.scalar 0, fun _ => [[1]]⟩
    ⟨fun _ => EvalRes.scalar 9, fun _ => [[1]]⟩
    [HostValue.pyscalar 2] (.scalar 1) (.scalar 1) rfl rfl

end TFE
